import Mathlib

/-!
Verification development for the Home-Services (Secuflow) backend.

This file gives a shallow embedding of the algorithmic core of the backend:

* `contributors/services.py` — TNM output ingestion (`_extract_username`,
  `_calculate_user_statistics`, `_suggest_functional_role`,
  `_process_contributor_data`);
* `coordination/models.py` — the edge tables (`TdEdge`, `CaEdge`, `CrEdge`)
  with their `CheckConstraint`/`UniqueConstraint` declarations, and the
  `CoordinationRun` row;
* `coordination/views.py` — the unrestricted `CoordinationRunViewSet` create
  path (field-level validation only);
* `common/git_utils.py` — credential resolution
  (`get_git_credential_for_url`), default-branch selection inside
  `validate_repository_access`;
* `accounts/models.py` — `GitCredential.is_expired`;
* `tnm_integration/services.py` — `TnmService.run_cli` (buffered and
  streaming modes) and `TnmService.prepare_sparse_workspace`.

Python strings are modelled as `List Char`; Python floats and Django
decimals as exact rationals `ℚ`; database tables as lists of rows, with
declared constraints enforced at insertion time; external processes
(git, the TNM jar) by their observable effects.  Definitions keep the
source functions' names (camel-cased) and transcribe their control flow.
-/

namespace Secuflow

/-! ### String primitives (Python `str` operations over `List Char`) -/

/-- Python `sep.join`-inverse `s.split(c)` for a single-character separator:
splits at every occurrence, keeping empty segments; `"".split(c) = [""]`. -/
def splitOnChar (c : Char) : List Char → List (List Char)
  | [] => [[]]
  | x :: xs =>
    let r := splitOnChar c xs
    if x = c then [] :: r
    else
      match r with
      | [] => [[x]]
      | h :: t => (x :: h) :: t

/-- Python `needle in hay` substring test. -/
def containsSub (needle : List Char) : List Char → Bool
  | [] => needle.isEmpty
  | c :: rest => needle.isPrefixOf (c :: rest) || containsSub needle rest

/-! ### OutputIngester — `contributors/services.py` -/

/-- The provider no-reply marker tested by `_extract_username`
(`'users.noreply.github.com' in email`). -/
def noreplyMarker : List Char := "users.noreply.github.com".toList

/-- `TNMDataAnalysisService._extract_username` (contributors/services.py):
local part before the first `'@'`; for GitHub no-reply addresses, the
segment after the first `'+'` of the local part when one exists. -/
def extractUsername (email : List Char) : List Char :=
  if email.contains '@' then
    let username := (splitOnChar '@' email).headI
    if containsSub noreplyMarker email then
      let parts := splitOnChar '+' username
      if 1 < parts.length then parts.getD 1 [] else parts.getD 0 []
    else username
  else email

/-- Round-half-to-even of a rational to an integer (the tie-breaking rule of
Python's `round`; Python floats are modelled as exact rationals here). -/
def roundHalfEven (q : ℚ) : ℤ :=
  let f := ⌊q⌋
  let r := q - f
  if r < 1/2 then f
  else if 1/2 < r then f + 1
  else if f % 2 = 0 then f else f + 1

/-- Python `round(x, 2)` on the modelled rationals. -/
def round2 (q : ℚ) : ℚ := (roundHalfEven (q * 100) : ℚ) / 100

/-- Python `dict.get k` over an association list (JSON objects are modelled
as association lists in insertion order). -/
def lookupAL {β : Type} (l : List (List Char × β)) (k : List Char) : Option β :=
  (l.find? fun p => decide (p.1 = k)).map Prod.snd

/-- Per-user statistics produced by `_calculate_user_statistics`
(the `file_types` breakdown is omitted: no later computation reads it). -/
structure UserStats where
  files_count : ℕ
  total_modifications : ℕ
  avg_modifications_per_file : ℚ
deriving DecidableEq, Repr

/-- `TNMDataAnalysisService._calculate_user_statistics`
(contributors/services.py): `assignment_matrix.get(user_id, {})`, file count,
summed modifications, and the 2-dp-rounded average (`0` when no files). -/
def calculateUserStatistics (userId : List Char)
    (assignmentMatrix : List (List Char × List (List Char × ℕ))) : UserStats :=
  let userData := (lookupAL assignmentMatrix userId).getD []
  let files_count := userData.length
  let total := (userData.map Prod.snd).sum
  let avg : ℚ := if 0 < files_count then (total : ℚ) / (files_count : ℚ) else 0
  { files_count := files_count
    total_modifications := total
    avg_modifications_per_file := round2 avg }

/-- `FunctionalRole` text choices (contributors/enums.py). -/
inductive FunctionalRole where
  | coder
  | reviewer
  | unclassified
deriving DecidableEq, Repr

/-- `TNMDataAnalysisService._suggest_functional_role`
(contributors/services.py): the decision table over
(total modifications, files count, average modifications per file). -/
def suggestFunctionalRole (stats : UserStats) : FunctionalRole × ℚ :=
  if 100 ≤ stats.total_modifications ∧ 10 ≤ stats.files_count then
    if 5 < stats.avg_modifications_per_file then (.coder, 0.8)
    else (.reviewer, 0.7)
  else if 50 ≤ stats.total_modifications then (.coder, 0.6)
  else if 10 ≤ stats.total_modifications then (.reviewer, 0.5)
  else (.unclassified, 0.3)

/-- The `ProjectContributor` snapshot fields written by
`_process_contributor_data`'s `update_or_create` defaults (time-stamp and
branch metadata carry no algorithmic content and are omitted). -/
structure Aggregate where
  tnm_user_id : List Char
  files_modified : ℕ
  total_modifications : ℕ
  avg_modifications_per_file : ℚ
  functional_role : FunctionalRole
  role_confidence : ℚ
  is_core_contributor : Bool
deriving DecidableEq, Repr

/-- The full `defaults` payload computed for one `(user_id, email)` pair. -/
def computeAggregate (userId : List Char)
    (assignmentMatrix : List (List Char × List (List Char × ℕ))) : Aggregate :=
  let stats := calculateUserStatistics userId assignmentMatrix
  let suggested := suggestFunctionalRole stats
  { tnm_user_id := userId
    files_modified := stats.files_count
    total_modifications := stats.total_modifications
    avg_modifications_per_file := stats.avg_modifications_per_file
    functional_role := suggested.1
    role_confidence := suggested.2
    is_core_contributor := decide (100 ≤ stats.total_modifications) }

/-- The `ProjectContributor` table for one project, keyed by the normalized
contributor login (the `update_or_create(project=..., contributor=...)` key). -/
def PCState : Type := List Char → Option Aggregate

/-- `update_or_create`: replace the whole snapshot stored under a key. -/
def upsertPC (s : PCState) (k : List Char) (v : Aggregate) : PCState :=
  fun k' => if k' = k then some v else s k'

/-- `TNMDataAnalysisService._process_contributor_data`
(contributors/services.py): iterate `id_to_user` in order and upsert one
`ProjectContributor` snapshot per entry, keyed by the normalized login.
(Contributor-row email backfill touches no aggregate field and is omitted;
the per-row `except: continue` never fires in the pure model.) -/
def processContributorData
    (assignmentMatrix : List (List Char × List (List Char × ℕ))) :
    List (List Char × List Char) → PCState → PCState
  | [], s => s
  | (userId, email) :: rest, s =>
      processContributorData assignmentMatrix rest
        (upsertPC s (extractUsername email) (computeAggregate userId assignmentMatrix))

/-- First-some choice on `Option` (used to state last-write-wins lookups). -/
def orOpt {α : Type} (x y : Option α) : Option α :=
  match x with
  | some v => some v
  | none => y

/-- Value of the last write to key `k` in a write list, if any. -/
def lastVal {α : Type} : List (List Char × α) → List Char → Option α
  | [], _ => none
  | (k', v) :: rest, k => orOpt (lastVal rest k) (if k' = k then some v else none)

/-- The (key, snapshot) write sequence one ingestion run performs. -/
def pendingWrites (assignmentMatrix : List (List Char × List (List Char × ℕ)))
    (idToUser : List (List Char × List Char)) : List (List Char × Aggregate) :=
  idToUser.map fun p => (extractUsername p.2, computeAggregate p.1 assignmentMatrix)

/-! ### GitAccessLayer — `common/git_utils.py`, `accounts/models.py` -/

/-- A `GitCredential` row (accounts/models.py), reduced to the fields that
`get_git_credential_for_url` and `is_expired` read. -/
structure GitCredential where
  provider : String
  is_active : Bool
  expires_at : Option ℤ
deriving DecidableEq, Repr

/-- Provider inference in `GitUtils.get_git_credential_for_url`
(common/git_utils.py): default `'github'`, overridden by a
`'gitlab.com'` / `'bitbucket.org'` substring of the URL. -/
def inferProvider (repoUrl : List Char) : String :=
  if containsSub "gitlab.com".toList repoUrl then "gitlab"
  else if containsSub "bitbucket.org".toList repoUrl then "bitbucket"
  else "github"

/-- `GitUtils.get_git_credential_for_url` (common/git_utils.py): with no
profile return `None`; otherwise the first of the profile's credentials whose
provider matches the inferred one and which is active (the ORM filter
`user_profile=..., provider=provider, is_active=True` followed by
`.first()`; the profile argument carries that owner's credential rows). -/
def getGitCredentialForUrl (repoUrl : List Char)
    (userProfile : Option (List GitCredential)) : Option GitCredential :=
  match userProfile with
  | none => none
  | some creds =>
      creds.find? fun c => c.provider == inferProvider repoUrl && c.is_active

/-- `GitCredential.is_expired` (accounts/models.py): false without an expiry
date, else `now > expires_at` (instants modelled as integers). -/
def isExpired (now : ℤ) (c : GitCredential) : Bool :=
  match c.expires_at with
  | none => false
  | some t => decide (t < now)

/-- Branch name `main`. -/
def mainName : List Char := "main".toList

/-- Branch name `master`. -/
def masterName : List Char := "master".toList

/-- Default-branch selection inside `GitUtils.validate_repository_access`
(common/git_utils.py), applied to the branch names parsed from
`git ls-remote --heads` in listing order: start from `'main'`; every listed
branch named `'main'` or `'master'` overwrites the choice; afterwards, if
branches were listed but the chosen name is not among them, fall back to the
first listed branch. -/
def defaultBranchFrom (branchNames : List (List Char)) : List Char :=
  let d := branchNames.foldl
    (fun acc name => if name = mainName ∨ name = masterName then name else acc)
    mainName
  if ¬branchNames.isEmpty ∧ ¬d ∈ branchNames then branchNames.headI else d

/-- The selection rule `defaultBranchFrom` actually implements, stated
set-theoretically: the last listed branch named `main` or `master`; else the
first listed branch; else `main`. -/
def defaultBranchSpec (branchNames : List (List Char)) : List Char :=
  match (branchNames.filter fun n =>
      decide (n = mainName) || decide (n = masterName)).getLast? with
  | some n => n
  | none => if branchNames.isEmpty then mainName else branchNames.headI

/-- The last element of a list satisfying a predicate, if any. -/
def lastMatch {α : Type} (p : α → Bool) : List α → Option α
  | [] => none
  | x :: xs => orOpt (lastMatch p xs) (if p x then some x else none)

/-! ### MiningOrchestrator — `tnm_integration/services.py` -/

/-- Observable behaviour of the external TNM process: how long it runs, its
exit code, and the stdout lines it produces. -/
structure TnmProc where
  duration : ℕ
  exitCode : ℤ
  outLines : List (List Char)
deriving DecidableEq, Repr

/-- Errors `TnmService.run_cli` can raise (`subprocess.TimeoutExpired` from
the buffered `subprocess.run` call). -/
inductive TnmErr where
  | timeoutExpired
deriving DecidableEq, Repr

/-- A `subprocess.CompletedProcess`, reduced to return code and stdout. -/
structure CompletedProc where
  returncode : ℤ
  stdout : List (List Char)
deriving DecidableEq, Repr

/-- `TnmService.run_cli` (tnm_integration/services.py), result paired with
whether the child process was killed.  Command-vector assembly (docker
prefix / run script / direct jar) only shapes `cmd` and is elided.
Buffered mode is `subprocess.run(..., timeout=timeout)`: exceeding the
timeout kills the child and raises `TimeoutExpired`.  Streaming mode
(`TNM_STREAM_LOG`) reads lines until the process exits; its loop's timeout
branch is a no-op (`pass`, enforcement left to external mechanisms), so the
full output is returned however long the process ran, and the trailing
`proc.returncode or 0` keeps any non-zero exit code. -/
def runCli (stream : Bool) (timeout : Option ℕ) (proc : TnmProc) :
    Except TnmErr CompletedProc × Bool :=
  if stream then
    (Except.ok ⟨proc.exitCode, proc.outLines⟩, false)
  else
    match timeout with
    | some t =>
        if t < proc.duration then (Except.error .timeoutExpired, true)
        else (Except.ok ⟨proc.exitCode, proc.outLines⟩, false)
    | none => (Except.ok ⟨proc.exitCode, proc.outLines⟩, false)

/-! ### WorkspacePreparer — `tnm_integration/services.py` -/

/-- The facts about the source repository that decide each step of
`prepare_sparse_workspace`. -/
structure PrepEnv where
  sourceIsDir : Bool
  sourceHasGit : Bool
  branchExists : Bool
deriving DecidableEq, Repr

/-- Mutations `prepare_sparse_workspace` performs on the temporary
workspace, in program order. -/
structure WsState where
  tmpCreated : Bool
  cloned : Bool
  filesPruned : Bool
  prunedBranchCreated : Bool
deriving DecidableEq, Repr

/-- Failures of `prepare_sparse_workspace`: the explicit `ValueError` of
input validation, and `CalledProcessError` from the clone or checkout
git steps. -/
inductive PrepErr where
  | valueError
  | cloneFailed
  | checkoutFailed
deriving DecidableEq, Repr

/-- `TnmService.prepare_sparse_workspace` (tnm_integration/services.py) as a
step sequence, returning the outcome and the workspace state reached:
`tempfile.mkdtemp`; input validation (`ValueError` when the source path is
not a directory — a missing `.git` only logs a warning); the local
no-checkout clone (git fails here when the source is not a repository);
`checkout -f branch` (git fails here when the branch is absent); the
working-tree prune; the `safe-mode-pruned` branch creation (history rewrite
stays feature-flagged off). -/
def prepareSparseWorkspace (env : PrepEnv) : Except PrepErr WsState × WsState :=
  let s0 : WsState := ⟨true, false, false, false⟩
  if ¬env.sourceIsDir then (Except.error .valueError, s0)
  else if ¬env.sourceHasGit then (Except.error .cloneFailed, s0)
  else
    let s1 : WsState := ⟨true, true, false, false⟩
    if ¬env.branchExists then (Except.error .checkoutFailed, s1)
    else
      let s3 : WsState := ⟨true, true, true, true⟩
      (Except.ok s3, s3)

/-! ### CoordinationGraphBuilder tables — `coordination/models.py` -/

/-- One undirected edge row, as the pair of endpoint ids (`file_a`/`file_b`
for `TdEdge`, `contributor_i`/`contributor_j` for `CaEdge`/`CrEdge`);
the table is already scoped to one `job` (resp. `run`), matching the
`UniqueConstraint` key prefixes. -/
abbrev EdgeRow : Type := ℕ × ℕ

/-- A database insert into a TD/CA/CR edge table under the declared
constraints (coordination/models.py): the `CheckConstraint`
`ck_td_order`/`ck_ca_order`/`ck_cr_order` requires the first endpoint id to
be strictly below the second, and the `UniqueConstraint` `uq_td`/`uq_ca`/
`uq_cr` rejects an exact duplicate; a violating insert is rejected and
leaves the table unchanged (`none`). -/
def insertEdgeAttempt (t : List EdgeRow) (a b : ℕ) : Option (List EdgeRow) :=
  if a < b ∧ ¬(a, b) ∈ t then some (t ++ [(a, b)]) else none

/-- Run a sequence of insert attempts against an initially empty table;
rejected inserts leave the table as it was. -/
def applyEdgeInserts (ops : List (ℕ × ℕ)) : List EdgeRow :=
  ops.foldl (fun t p => (insertEdgeAttempt t p.1 p.2).getD t) []

/-! ### CoordinationGraphBuilder scoring (modelled from the spec) -/

/-- A `CoordinationRun` summary row (coordination/models.py): `score` is a
`DecimalField(max_digits=6, decimal_places=3)` modelled as `ℚ`, and
`cr_count`/`diff_count` are `IntegerField`s modelled as `ℤ`. -/
structure CoordinationRunRow where
  score : ℚ
  cr_count : ℤ
  diff_count : ℤ
deriving DecidableEq, Repr

/-- Modelled from the spec: the per-CR-edge tally of the STC computation,
whose implementation is not part of this tree (only its tables and REST
surface are).  Walking the CR edges once, it counts edges that also appear
in the CA edge set (matched) and edges with no matching CA edge (diff). -/
def tallyCr (caEdges : List EdgeRow) (crEdges : List EdgeRow) : ℕ × ℕ :=
  crEdges.foldl
    (fun acc e => if e ∈ caEdges then (acc.1 + 1, acc.2) else (acc.1, acc.2 + 1))
    (0, 0)

/-- Modelled from the spec: one STC coordination run over given CR and CA
edge sets — `STC = |edges in both CR and CA| / |edges in CR|` (the `ℚ`
convention `x / 0 = 0` covers an empty CR set), `cr_count` the number of CR
edges, `diff_count` the number of CR edges with no matching CA edge. -/
def runStc (crEdges caEdges : List EdgeRow) : CoordinationRunRow :=
  let tally := tallyCr caEdges crEdges
  { score := (tally.1 : ℚ) / (crEdges.length : ℚ)
    cr_count := (crEdges.length : ℤ)
    diff_count := (tally.2 : ℤ) }

/-- Modelled from the spec: persisting a run appends it to the append-only
`CoordinationRun` history. -/
def persistRun (hist : List CoordinationRunRow) (r : CoordinationRunRow) :
    List CoordinationRunRow :=
  hist ++ [r]

/-- Django `IntegerField` range validation (a 32-bit column). -/
def intFieldOk (n : ℤ) : Bool := decide (-(2 ^ 31) ≤ n) && decide (n < 2 ^ 31)

/-- The `CoordinationRunViewSet` create path (coordination/views.py): a
`ModelViewSet` whose serializer exposes `score`, `cr_count` and `diff_count`
as writable fields with only field-level validation — the score is any
3-decimal-place value of at most 6 digits (given here in thousandths), the
counts any `IntegerField` values.  No cross-field or range rule relates the
three. -/
def createRunViaApi (scoreMilli : ℤ) (cr diff : ℤ) : Option CoordinationRunRow :=
  if decide (scoreMilli.natAbs ≤ 999999) && intFieldOk cr && intFieldOk diff then
    some { score := (scoreMilli : ℚ) / 1000, cr_count := cr, diff_count := diff }
  else none

/-! ### Helper lemmas on the string primitives -/

theorem orOpt_some {α : Type} (v : α) (y : Option α) : orOpt (some v) y = some v := rfl

theorem orOpt_none {α : Type} (y : Option α) : orOpt none y = y := rfl

theorem splitOnChar_ne_nil (c : Char) (l : List Char) : splitOnChar c l ≠ [] := by
  cases l with
  | nil => simp [splitOnChar]
  | cons x xs =>
      rw [splitOnChar]
      by_cases h : x = c
      · simp [h]
      · simp only [if_neg h]
        cases splitOnChar c xs <;> simp

theorem headI_splitOnChar (c : Char) (l : List Char) :
    (splitOnChar c l).headI = l.takeWhile fun x => !(x == c) := by
  induction l with
  | nil => rfl
  | cons x xs ih =>
      rw [splitOnChar, List.takeWhile_cons]
      by_cases h : x = c
      · simp [h]
      · have hb : (!(x == c)) = true := by simp [h]
        rw [hb, if_neg h]
        rcases hr : splitOnChar c xs with _ | ⟨hd, tl⟩
        · exact absurd hr (splitOnChar_ne_nil c xs)
        · simp only [List.headI]
          rw [← ih, hr]
          simp [List.headI]

theorem splitOnChar_of_not_mem (c : Char) (l : List Char) (h : ¬c ∈ l) :
    splitOnChar c l = [l] := by
  induction l with
  | nil => rfl
  | cons x xs ih =>
      rw [splitOnChar]
      have hx : ¬x = c := fun he => h (he ▸ List.mem_cons_self x xs)
      have hxs : ¬c ∈ xs := fun hm => h (List.mem_cons_of_mem x hm)
      rw [if_neg hx, ih hxs]

theorem splitOnChar_append (c : Char) (a rest : List Char) (h : ¬c ∈ a) :
    splitOnChar c (a ++ c :: rest) = a :: splitOnChar c rest := by
  induction a with
  | nil => simp [splitOnChar]
  | cons x xs ih =>
      have hx : ¬x = c := fun he => h (he ▸ List.mem_cons_self x xs)
      have hxs : ¬c ∈ xs := fun hm => h (List.mem_cons_of_mem x hm)
      rw [List.cons_append, splitOnChar, if_neg hx, ih hxs]

theorem containsSub_cons (n : List Char) (c : Char) (rest : List Char)
    (h : containsSub n rest = true) : containsSub n (c :: rest) = true := by
  rw [containsSub, h, Bool.or_true]

theorem isPrefixOf_self (l : List Char) : l.isPrefixOf l = true := by
  induction l with
  | nil => rfl
  | cons x xs ih => simp [List.isPrefixOf, ih]

theorem containsSub_self (n : List Char) : containsSub n n = true := by
  cases n with
  | nil => rfl
  | cons x xs =>
      rw [containsSub, isPrefixOf_self, Bool.true_or]

theorem containsSub_append_left (n l₁ l₂ : List Char)
    (h : containsSub n l₂ = true) : containsSub n (l₁ ++ l₂) = true := by
  induction l₁ with
  | nil => simpa using h
  | cons x xs ih => exact containsSub_cons n x (xs ++ l₂) ih

theorem contains_of_mem {l : List Char} {a : Char} (h : a ∈ l) :
    l.contains a = true := by
  simpa using List.elem_iff.mpr h

/-! ### C5 — login normalization -/

/-- C5: the claim's first example fails on the code: `_extract_username`
only recognizes the GitHub marker `users.noreply.github.com`, so
`12345+alice@users.noreply.example.com` keeps its whole local part
`12345+alice` instead of normalizing to `alice`. -/
theorem C5_noreply_example_counterexample :
    extractUsername "12345+alice@users.noreply.example.com".toList =
      "12345+alice".toList ∧
    "12345+alice".toList ≠ "alice".toList := by
  constructor
  · decide
  · decide

/-- C5 (amended): login normalization returns the local part before the
first `'@'`; only when the email contains the GitHub no-reply marker
`users.noreply.github.com` does it return the segment embedded after
`'+'` — in particular `12345+alice@users.noreply.github.com → alice` and
`bob@company.com → bob`. -/
theorem C5_extract_username_amended :
    extractUsername "12345+alice@users.noreply.github.com".toList =
      "alice".toList ∧
    extractUsername "bob@company.com".toList = "bob".toList ∧
    (∀ e : List Char, e.contains '@' = true →
      containsSub noreplyMarker e = false →
      extractUsername e = e.takeWhile fun c => !(c == '@')) ∧
    (∀ a b : List Char, ¬('+' ∈ a) → ¬('@' ∈ a) → ¬('+' ∈ b) → ¬('@' ∈ b) →
      extractUsername (a ++ '+' :: (b ++ '@' :: noreplyMarker)) = b) := by
  refine ⟨by decide, by decide, ?_, ?_⟩
  · intro e h1 h2
    unfold extractUsername
    rw [h1, h2]
    simp [headI_splitOnChar]
  · intro a b hpa haa hpb hab
    have hmem : '@' ∈ a ++ '+' :: (b ++ '@' :: noreplyMarker) := by
      refine List.mem_append_right _ ?_
      exact List.mem_cons_of_mem _ (List.mem_append_right _ (List.mem_cons_self _ _))
    have hsub : containsSub noreplyMarker (a ++ '+' :: (b ++ '@' :: noreplyMarker)) = true := by
      refine containsSub_append_left _ _ _ ?_
      refine containsSub_cons _ _ _ ?_
      refine containsSub_append_left _ _ _ ?_
      exact containsSub_cons _ _ _ (containsSub_self _)
    have hre : a ++ '+' :: (b ++ '@' :: noreplyMarker) =
        (a ++ '+' :: b) ++ '@' :: noreplyMarker := by
      simp
    have hnoAt : ¬('@' ∈ a ++ '+' :: b) := by
      intro hm
      rcases List.mem_append.mp hm with h | h
      · exact haa h
      · rcases List.mem_cons.mp h with h | h
        · exact absurd h (by decide)
        · exact hab h
    unfold extractUsername
    rw [contains_of_mem hmem, hsub]
    simp only [if_true]
    rw [hre, splitOnChar_append _ _ _ hnoAt]
    simp only [List.headI]
    rw [splitOnChar_append _ _ _ hpa, splitOnChar_of_not_mem _ _ hpb]
    simp

/-- C5 witness: the amended theorem applied at the concrete GitHub no-reply
address split `12345 + alice`. -/
theorem C5_extract_username_amended_witness :
    extractUsername ("12345".toList ++ '+' :: ("alice".toList ++ '@' :: noreplyMarker)) =
      "alice".toList :=
  C5_extract_username_amended.2.2.2 "12345".toList "alice".toList
    (by decide) (by decide) (by decide) (by decide)

/-! ### C6 — ingestion idempotence -/

theorem orOpt_assoc {α : Type} (a b : Option α) (c : Option α) :
    orOpt (orOpt a b) c = orOpt a (orOpt b c) := by
  cases a <;> rfl

theorem upsertPC_eq_orOpt (s : PCState) (k' : List Char) (v : Aggregate)
    (k : List Char) : upsertPC s k' v k = orOpt (if k' = k then some v else none) (s k) := by
  by_cases h : k = k'
  · rw [upsertPC, if_pos h, if_pos h.symm, orOpt_some]
  · rw [upsertPC, if_neg h, if_neg (fun he => h he.symm), orOpt_none]

theorem processContributorData_lookup
    (am : List (List Char × List (List Char × ℕ))) :
    ∀ (l : List (List Char × List Char)) (s : PCState) (k : List Char),
      processContributorData am l s k = orOpt (lastVal (pendingWrites am l) k) (s k) := by
  intro l
  induction l with
  | nil => intro s k; rfl
  | cons p rest ih =>
      intro s k
      obtain ⟨uid, email⟩ := p
      rw [processContributorData, ih]
      show _ = orOpt (lastVal (pendingWrites am ((uid, email) :: rest)) k) (s k)
      have hpw : pendingWrites am ((uid, email) :: rest) =
          (extractUsername email, computeAggregate uid am) :: pendingWrites am rest := rfl
      rw [hpw, lastVal, orOpt_assoc, upsertPC_eq_orOpt]

/-- C6: ingestion is idempotent — running `_process_contributor_data` twice
on the same `idToUser` map and assignment matrix leaves every
`ProjectContributor` snapshot identical to the state after the first run
(the snapshot is fully replaced, never accumulated). -/
theorem C6_ingestion_idempotent
    (am : List (List Char × List (List Char × ℕ)))
    (idToUser : List (List Char × List Char)) (s : PCState) :
    processContributorData am idToUser (processContributorData am idToUser s) =
      processContributorData am idToUser s := by
  funext k
  rw [processContributorData_lookup, processContributorData_lookup]
  cases h : lastVal (pendingWrites am idToUser) k with
  | some v => rw [orOpt_some, orOpt_some]
  | none => rw [orOpt_none, orOpt_none]

/-! ### C3 — canonical ordering of the TD/CA/CR edge tables -/

theorem foldl_insert_inv (ops : List (ℕ × ℕ)) :
    ∀ t : List EdgeRow, (∀ p ∈ t, p.1 < p.2) → t.Nodup →
      (∀ p ∈ ops.foldl (fun t p => (insertEdgeAttempt t p.1 p.2).getD t) t, p.1 < p.2) ∧
      (ops.foldl (fun t p => (insertEdgeAttempt t p.1 p.2).getD t) t).Nodup := by
  induction ops with
  | nil => intro t h1 h2; exact ⟨h1, h2⟩
  | cons q rest ih =>
      intro t h1 h2
      rw [List.foldl_cons]
      by_cases hc : q.1 < q.2 ∧ ¬(q.1, q.2) ∈ t
      · rw [insertEdgeAttempt, if_pos hc]
        refine ih (t ++ [(q.1, q.2)]) ?_ ?_
        · intro p hp
          rcases List.mem_append.mp hp with h | h
          · exact h1 p h
          · rcases List.mem_singleton.mp h with rfl
            exact hc.1
        · rw [List.nodup_append]
          refine ⟨h2, List.nodup_singleton _, ?_⟩
          intro x hx hxs
          rcases List.mem_singleton.mp hxs with rfl
          exact hc.2 hx
      · rw [insertEdgeAttempt, if_neg hc]
        exact ih t h1 h2

/-- C3: every row a TD/CA/CR table can hold under its declared constraints
is canonically ordered (`a < b`); the same undirected edge never exists
twice within one job/run table; and an insert attempt with the reversed
pair of an ordered edge is rejected. -/
theorem C3_edge_tables_canonical (ops : List (ℕ × ℕ)) :
    (∀ p ∈ applyEdgeInserts ops, p.1 < p.2) ∧
    (applyEdgeInserts ops).Nodup ∧
    (∀ p ∈ applyEdgeInserts ops, ¬(p.2, p.1) ∈ applyEdgeInserts ops) ∧
    (∀ a b : ℕ, a < b → insertEdgeAttempt (applyEdgeInserts ops) b a = none) := by
  obtain ⟨h1, h2⟩ := foldl_insert_inv ops [] (by simp) List.nodup_nil
  refine ⟨h1, h2, ?_, ?_⟩
  · intro p hp hrev
    exact absurd (h1 p hp) (Nat.lt_asymm (h1 (p.2, p.1) hrev))
  · intro a b hab
    rw [insertEdgeAttempt, if_neg]
    rintro ⟨h, -⟩
    exact Nat.lt_asymm hab h

/-- C3 witness: on the table built from the single insert `(1, 2)`, the
stored row is ordered and the reversed insert `(2, 1)` is rejected. -/
theorem C3_edge_tables_canonical_witness :
    ((1, 2) : EdgeRow).1 < ((1, 2) : EdgeRow).2 ∧
    insertEdgeAttempt (applyEdgeInserts [(1, 2)]) 2 1 = none :=
  ⟨(C3_edge_tables_canonical [(1, 2)]).1 (1, 2) (by decide),
   (C3_edge_tables_canonical [(1, 2)]).2.2.2 1 2 (by decide)⟩

/-! ### C1/C2 — STC score, persistence, and the run invariant -/

theorem tallyCr_foldl (ca : List EdgeRow) (cr : List EdgeRow) :
    ∀ acc : ℕ × ℕ,
      cr.foldl (fun acc e => if e ∈ ca then (acc.1 + 1, acc.2) else (acc.1, acc.2 + 1)) acc =
      (acc.1 + (cr.filter fun e => decide (e ∈ ca)).length,
       acc.2 + (cr.filter fun e => !decide (e ∈ ca)).length) := by
  induction cr with
  | nil => intro acc; simp
  | cons e rest ih =>
      intro acc
      by_cases h : e ∈ ca
      · rw [List.foldl_cons, if_pos h, ih]
        simp [List.filter_cons, h, Prod.ext_iff]
        omega
      · rw [List.foldl_cons, if_neg h, ih]
        simp [List.filter_cons, h, Prod.ext_iff]
        omega

theorem tallyCr_spec (ca cr : List EdgeRow) :
    tallyCr ca cr = ((cr.filter fun e => decide (e ∈ ca)).length,
                     (cr.filter fun e => !decide (e ∈ ca)).length) := by
  rw [tallyCr, tallyCr_foldl]
  simp

/-- C1: an STC coordination run scores
`|edges in both CR and CA| / |edges in CR|`, carries `cr_count` = number of
CR edges and `diff_count` = number of CR edges with no matching CA edge,
and persisting it appends exactly this row to the CoordinationRun history. -/
theorem C1_stc_run_score_and_persist (cr ca : List EdgeRow)
    (hist : List CoordinationRunRow) :
    persistRun hist (runStc cr ca) = hist ++ [runStc cr ca] ∧
    (runStc cr ca).score =
      ((cr.filter fun e => decide (e ∈ ca)).length : ℚ) / (cr.length : ℚ) ∧
    (runStc cr ca).cr_count = (cr.length : ℤ) ∧
    (runStc cr ca).diff_count =
      ((cr.filter fun e => !decide (e ∈ ca)).length : ℤ) := by
  refine ⟨rfl, ?_, rfl, ?_⟩ <;> simp [runStc, tallyCr_spec]

/-- C2 (amended): every CoordinationRun row produced by the STC scoring
computation satisfies `0 ≤ score ≤ 1` and `diff_count ≤ cr_count`. -/
theorem C2_run_invariant_amended (cr ca : List EdgeRow) :
    0 ≤ (runStc cr ca).score ∧ (runStc cr ca).score ≤ 1 ∧
    (runStc cr ca).diff_count ≤ (runStc cr ca).cr_count := by
  have hm : (cr.filter fun e => decide (e ∈ ca)).length ≤ cr.length :=
    List.length_filter_le _ _
  have hd : (cr.filter fun e => !decide (e ∈ ca)).length ≤ cr.length :=
    List.length_filter_le _ _
  simp only [runStc, tallyCr_spec]
  refine ⟨by positivity, ?_, by exact_mod_cast hd⟩
  rcases Nat.eq_zero_or_pos cr.length with h0 | hpos
  · have : cr = [] := List.length_eq_zero.mp h0
    subst this
    simp
  · rw [div_le_one (by exact_mod_cast hpos)]
    exact_mod_cast hm

/-- C2: the claim as stated fails on the code — the `CoordinationRunViewSet`
create path accepts a row with `score = 2` (well inside the
`DecimalField(6, 3)` bounds), `cr_count = 0` and `diff_count = 5`, so a
CoordinationRun with `score > 1` and `diff_count > cr_count` can come into
existence through the program's operations. -/
theorem C2_run_invariant_counterexample :
    createRunViaApi 2000 0 5 = some { score := 2, cr_count := 0, diff_count := 5 } ∧
    ¬((2 : ℚ) ≤ 1) ∧ ¬((5 : ℤ) ≤ 0) := by
  refine ⟨?_, by norm_num, by decide⟩
  norm_num [createRunViaApi, intFieldOk]

/-! ### C4 — functional-role decision table -/

/-- C4: `_suggest_functional_role` implements exactly the documented
decision table, including the three boundary points
`(100, 10, 6) → CODER/0.8`, `(100, 10, 4) → REVIEWER/0.7`, and
`(99, 10, 6)` falling through the `≥ 100` bracket to `CODER/0.6`. -/
theorem C4_role_decision_table :
    (∀ (m f : ℕ) (a : ℚ), 100 ≤ m → 10 ≤ f → 5 < a →
      suggestFunctionalRole ⟨f, m, a⟩ = (.coder, 0.8)) ∧
    (∀ (m f : ℕ) (a : ℚ), 100 ≤ m → 10 ≤ f → a ≤ 5 →
      suggestFunctionalRole ⟨f, m, a⟩ = (.reviewer, 0.7)) ∧
    (∀ (m f : ℕ) (a : ℚ), ¬(100 ≤ m ∧ 10 ≤ f) → 50 ≤ m →
      suggestFunctionalRole ⟨f, m, a⟩ = (.coder, 0.6)) ∧
    (∀ (m f : ℕ) (a : ℚ), ¬(100 ≤ m ∧ 10 ≤ f) → m < 50 → 10 ≤ m →
      suggestFunctionalRole ⟨f, m, a⟩ = (.reviewer, 0.5)) ∧
    (∀ (m f : ℕ) (a : ℚ), ¬(100 ≤ m ∧ 10 ≤ f) → m < 10 →
      suggestFunctionalRole ⟨f, m, a⟩ = (.unclassified, 0.3)) ∧
    suggestFunctionalRole ⟨10, 100, 6⟩ = (.coder, 0.8) ∧
    suggestFunctionalRole ⟨10, 100, 4⟩ = (.reviewer, 0.7) ∧
    suggestFunctionalRole ⟨10, 99, 6⟩ = (.coder, 0.6) := by
  refine ⟨?_, ?_, ?_, ?_, ?_, ?_, ?_, ?_⟩
  · intro m f a h1 h2 h3
    rw [suggestFunctionalRole, if_pos ⟨h1, h2⟩, if_pos h3]
  · intro m f a h1 h2 h3
    rw [suggestFunctionalRole, if_pos ⟨h1, h2⟩, if_neg (not_lt.mpr h3)]
  · intro m f a h1 h2
    rw [suggestFunctionalRole, if_neg h1, if_pos h2]
  · intro m f a h1 h2 h3
    rw [suggestFunctionalRole, if_neg h1, if_neg (Nat.not_le.mpr h2), if_pos h3]
  · intro m f a h1 h2
    rw [suggestFunctionalRole, if_neg h1,
      if_neg (Nat.not_le.mpr (Nat.lt_of_lt_of_le h2 (by norm_num))),
      if_neg (Nat.not_le.mpr h2)]
  · norm_num [suggestFunctionalRole]
  · norm_num [suggestFunctionalRole]
  · norm_num [suggestFunctionalRole]

/-- C4 witness: the decision-table brackets applied at the three boundary
records named by the claim. -/
theorem C4_role_decision_table_witness :
    suggestFunctionalRole ⟨(10 : ℕ), (100 : ℕ), (6 : ℚ)⟩ = (.coder, 0.8) ∧
    suggestFunctionalRole ⟨(10 : ℕ), (100 : ℕ), (4 : ℚ)⟩ = (.reviewer, 0.7) ∧
    suggestFunctionalRole ⟨(10 : ℕ), (99 : ℕ), (6 : ℚ)⟩ = (.coder, 0.6) :=
  ⟨C4_role_decision_table.1 100 10 6 (by norm_num) (by norm_num) (by norm_num),
   C4_role_decision_table.2.1 100 10 4 (by norm_num) (by norm_num) (by norm_num),
   C4_role_decision_table.2.2.1 99 10 6 (by omega) (by norm_num)⟩

/-! ### C7 — credential resolution -/

/-- C7: the claim as stated fails on the code — `get_git_credential_for_url`
filters only on `(user_profile, provider, is_active)` and never consults
`is_expired`, so an active credential whose `expires_at` lies in the past is
returned. -/
theorem C7_credential_expiry_counterexample :
    getGitCredentialForUrl "https://github.com/acme/app".toList
        (some [{ provider := "github", is_active := true, expires_at := some 0 }]) =
      some { provider := "github", is_active := true, expires_at := some 0 } ∧
    isExpired 1 { provider := "github", is_active := true, expires_at := some 0 } = true := by
  decide

/-- C7 (amended): credential resolution infers the provider from a host
substring of the URL and returns a credential only if it belongs to that
same (owner, provider) pair and is active — never cross-provider; expiry is
not checked. -/
theorem C7_credential_resolution_amended (url : List Char)
    (profile : Option (List GitCredential)) (c : GitCredential)
    (h : getGitCredentialForUrl url profile = some c) :
    c.provider = inferProvider url ∧ c.is_active = true := by
  cases profile with
  | none => simp [getGitCredentialForUrl] at h
  | some creds =>
      simp only [getGitCredentialForUrl] at h
      have hp := List.find?_some h
      simp only [Bool.and_eq_true, beq_iff_eq] at hp
      exact hp

/-- C7 witness: the amended theorem applied to a GitLab URL and a matching
active GitLab credential. -/
theorem C7_credential_resolution_amended_witness :
    ({ provider := "gitlab", is_active := true, expires_at := none } : GitCredential).provider =
      inferProvider "https://gitlab.com/acme/app".toList ∧
    ({ provider := "gitlab", is_active := true, expires_at := none } : GitCredential).is_active =
      true :=
  C7_credential_resolution_amended "https://gitlab.com/acme/app".toList
    (some [{ provider := "gitlab", is_active := true, expires_at := none }])
    { provider := "gitlab", is_active := true, expires_at := none } (by decide)

/-! ### C8 — mining-tool timeout semantics -/

/-- C8: the claim as stated fails on the code — in the line-streaming mode
the loop's timeout branch is a `pass`, so a process exceeding the timeout is
not killed, no Timeout error is raised, and a successful result carrying the
streamed output is returned. -/
theorem C8_timeout_counterexample :
    runCli true (some 1) ⟨2, 0, ["partial".toList]⟩ =
      (Except.ok ⟨0, ["partial".toList]⟩, false) ∧
    ∀ e : TnmErr, (runCli true (some 1) ⟨2, 0, ["partial".toList]⟩).1 ≠ Except.error e := by
  refine ⟨rfl, fun e => ?_⟩
  simp [runCli]

/-- C8 (amended): in the buffering mode, a process exceeding a finite
timeout is killed and a Timeout error is raised with no partial result; in
the line-streaming mode the timeout is not enforced and the process's full
output is returned. -/
theorem C8_timeout_amended :
    (∀ (proc : TnmProc) (t : ℕ), t < proc.duration →
      runCli false (some t) proc = (Except.error .timeoutExpired, true)) ∧
    (∀ (proc : TnmProc) (timeout : Option ℕ),
      runCli true timeout proc = (Except.ok ⟨proc.exitCode, proc.outLines⟩, false)) := by
  constructor
  · intro proc t h
    simp [runCli, h]
  · intro proc timeout
    simp [runCli]

/-- C8 witness: the buffered branch applied at timeout 1 against a process
running for 2 time units. -/
theorem C8_timeout_amended_witness :
    runCli false (some 1) ⟨2, 0, []⟩ = (Except.error .timeoutExpired, true) :=
  C8_timeout_amended.1 ⟨2, 0, []⟩ 1 (by decide)

/-! ### C9 — workspace preparation fail-fast -/

/-- C9: the claim as stated fails on the code — with a valid repository but
an absent branch, `prepare_sparse_workspace` fails only at the checkout
step, after the local clone has already been made. -/
theorem C9_failfast_counterexample :
    prepareSparseWorkspace ⟨true, true, false⟩ =
      (Except.error .checkoutFailed, ⟨true, true, false, false⟩) ∧
    (⟨true, true, false, false⟩ : WsState).cloned = true :=
  ⟨rfl, rfl⟩

/-- C9 (amended): when the source path is not a directory, or is not a git
repository, preparation fails before the clone and before any deletion or
branch creation; when the branch is absent it fails at the checkout step —
after the local clone, but still before any file deletion or branch
creation in the temporary workspace. -/
theorem C9_failfast_amended (env : PrepEnv) :
    (env.sourceIsDir = false →
      prepareSparseWorkspace env = (Except.error .valueError, ⟨true, false, false, false⟩)) ∧
    (env.sourceIsDir = true → env.sourceHasGit = false →
      prepareSparseWorkspace env = (Except.error .cloneFailed, ⟨true, false, false, false⟩)) ∧
    (env.sourceIsDir = true → env.sourceHasGit = true → env.branchExists = false →
      prepareSparseWorkspace env = (Except.error .checkoutFailed, ⟨true, true, false, false⟩)) := by
  obtain ⟨d, g, b⟩ := env
  refine ⟨?_, ?_, ?_⟩
  · intro h1
    subst h1
    rfl
  · intro h1 h2
    subst h1
    subst h2
    rfl
  · intro h1 h2 h3
    subst h1
    subst h2
    subst h3
    rfl

/-- C9 witness: the checkout-step failure applied at the concrete
environment (valid directory, valid repository, absent branch). -/
theorem C9_failfast_amended_witness :
    prepareSparseWorkspace ⟨true, true, false⟩ =
      (Except.error PrepErr.checkoutFailed, ⟨true, true, false, false⟩) :=
  (C9_failfast_amended ⟨true, true, false⟩).2.2 rfl rfl rfl

/-! ### C10 — default-branch selection -/

theorem orOpt_none_right {α : Type} (a : Option α) : orOpt a none = a := by
  cases a <;> rfl

theorem lastMatch_foldl {α : Type} [Inhabited α] (p : α → Bool) :
    ∀ (l : List α) (a : α),
      l.foldl (fun acc n => if p n then n else acc) a = (lastMatch p l).getD a := by
  intro l
  induction l with
  | nil => intro a; rfl
  | cons x xs ih =>
      intro a
      rw [List.foldl_cons, ih, lastMatch]
      cases h : lastMatch p xs with
      | some v => simp [orOpt]
      | none => by_cases hp : p x <;> simp [orOpt, hp]

theorem lastMatch_mem {α : Type} (p : α → Bool) :
    ∀ (l : List α) (m : α), lastMatch p l = some m → m ∈ l ∧ p m = true := by
  intro l
  induction l with
  | nil => intro m h; simp [lastMatch] at h
  | cons x xs ih =>
      intro m h
      rw [lastMatch] at h
      cases hx : lastMatch p xs with
      | some v =>
          rw [hx, orOpt_some] at h
          obtain ⟨hm, hpm⟩ := ih v hx
          injection h with h'
          subst h'
          exact ⟨List.mem_cons_of_mem _ hm, hpm⟩
      | none =>
          rw [hx, orOpt_none] at h
          by_cases hp : p x
          · rw [if_pos hp] at h
            obtain rfl : x = m := by injection h
            exact ⟨List.mem_cons_self _ _, hp⟩
          · rw [if_neg hp] at h
            exact absurd h (by simp)

theorem lastMatch_none {α : Type} (p : α → Bool) :
    ∀ l : List α, lastMatch p l = none → ∀ x ∈ l, p x = false := by
  intro l
  induction l with
  | nil => intro _ x hx; simp at hx
  | cons y ys ih =>
      intro h x hx
      rw [lastMatch] at h
      cases hy : lastMatch p ys with
      | some v => rw [hy, orOpt_some] at h; exact absurd h (by simp)
      | none =>
          rw [hy, orOpt_none] at h
          rcases List.mem_cons.mp hx with rfl | hx
          · by_cases hp : p x
            · rw [if_pos hp] at h; exact absurd h (by simp)
            · simpa using hp
          · exact ih hy x hx

theorem lastMatch_eq_filter_getLast {α : Type} (p : α → Bool) :
    ∀ l : List α, lastMatch p l = (l.filter p).getLast? := by
  intro l
  induction l with
  | nil => rfl
  | cons x xs ih =>
      rw [lastMatch, ih]
      by_cases hp : p x
      · rw [List.filter_cons_of_pos hp]
        cases hf : xs.filter p with
        | nil => simp [orOpt, hp]
        | cons y ys =>
            rw [List.getLast?_cons_cons]
            cases hg : (y :: ys).getLast? with
            | some z => rw [orOpt_some]
            | none => exact absurd (List.getLast?_eq_none_iff.mp hg) (by simp)
      · rw [List.filter_cons_of_neg hp, if_neg hp, orOpt_none_right]

/-- C10: the claim as stated fails on the code — when both `main` and
`master` are listed (in that order), the selection loop's last match wins
and the reported default branch is `master`, not `main`. -/
theorem C10_default_branch_counterexample :
    defaultBranchFrom [mainName, masterName] = masterName ∧ masterName ≠ mainName := by
  constructor
  · decide
  · decide

/-- C10 (amended): the reported default branch is the last listed branch
named `main` or `master`; when neither is listed it is the first listed
branch, and with no branches at all it is `main`. -/
theorem C10_default_branch_amended (names : List (List Char)) :
    defaultBranchFrom names = defaultBranchSpec names := by
  have hfun : (fun (acc name : List Char) =>
      if name = mainName ∨ name = masterName then name else acc) =
      (fun acc name =>
        if (decide (name = mainName) || decide (name = masterName)) then name else acc) := by
    funext acc name
    by_cases h : name = mainName ∨ name = masterName
    · simp [h]
    · simp [h]
  rw [defaultBranchFrom, hfun,
    lastMatch_foldl (fun n => decide (n = mainName) || decide (n = masterName)) names mainName,
    defaultBranchSpec, ← lastMatch_eq_filter_getLast]
  cases h : lastMatch (fun n => decide (n = mainName) || decide (n = masterName)) names with
  | some m =>
      obtain ⟨hm, -⟩ := lastMatch_mem _ names m h
      simp [hm]
  | none =>
      have hmain : ¬mainName ∈ names := by
        intro hmem
        have := lastMatch_none _ names h mainName hmem
        simp at this
      cases names with
      | nil => rfl
      | cons y ys => simp [hmain]

end Secuflow
